import Mathlib

/-!
Verification of the `combinator` parser-combinator library.

The embedding works at the character level: the input text is a `List Char`
and the cursor offset counts characters. Each Rust combinator (`Lit`, `Char`,
`Seq`, `Rep`, `Alt`) is translated to a Lean function over an abstract child
parser type, mirroring the Rust trait-object design, and a fueled interpreter
`parseT` evaluates whole matcher trees. The unbounded greedy loop of `Rep` is
modelled with explicit fuel; `Rep.loop` distinguishes running out of fuel
(outer `none`, i.e. divergence) from the loop exiting (outer `some`).
-/

/-- The cursor: input text plus a read offset (Rust `State { s, offset }`). -/
structure State where
  s : List Char
  offset : Nat
deriving DecidableEq, Repr

/-- Rust `State::peek`: the next `n` characters starting at `offset`, or the
empty string when fewer than `n` characters remain (`offset + n > s.len()`). -/
def State.peek (st : State) (n : Nat) : List Char :=
  if st.s.length < st.offset + n then [] else (st.s.drop st.offset).take n

/-- Rust `State::read`: a new cursor with the same text and `offset + n`. -/
def State.read (st : State) (n : Nat) : State :=
  State.mk st.s (st.offset + n)

/-- A fragment list: the ordered matched substrings (`Vec<String>`). -/
abbrev Frags := List (List Char)

/-- The matcher contract (Rust `trait Parse`): cursor in, optional
(fragments, next cursor) out. -/
abbrev Parser := State → Option (Frags × State)

/-- Rust `impl Parse for Lit`: peek `lit.len()` characters; succeed with
fragments `[peeked]` and the cursor advanced by `lit.len()` iff the peeked
text equals the literal. -/
def Lit.parse (lit : List Char) : Parser := fun st =>
  let peeked := st.peek lit.length
  if peeked = lit then some ([peeked], st.read lit.length) else none

/-- Rust `Regex::is_match` of a compiled single-character class on a peeked
string: a bracket expression `[...]` matches somewhere in `s` iff some
character of `s` satisfies the class test (on the empty string it never
matches). -/
def isMatch (p : Char → Bool) (s : List Char) : Bool := s.any p

/-- Rust `impl Parse for Char`: peek one character; succeed with fragments
`[peeked]` and the cursor advanced by 1 iff the compiled class test matches. -/
def Char.parse (p : Char → Bool) : Parser := fun st =>
  let peeked := st.peek 1
  if isMatch p peeked then some ([peeked], st.read 1) else none

/-- Modelled from the spec: the `regex` crate's compilation of the interior of
a bracket expression (`Regex::new("[" ++ pat ++ "]")`) is external library
code, not part of this repository's source. Following the spec's words, the
interior is read as a sequence of items, each either a range `a-b` (valid when
`a <= b`) or a single literal character; the result is the list of accepted
ranges (a single character `c` standing for the range `c-c`), or `none` when
some range is reversed. -/
def classItems : List Char → Option (List (Char × Char))
  | [] => some []
  | [a] => some [(a, a)]
  | [a, b] => some [(a, a), (b, b)]
  | a :: b :: c :: rest =>
    if b = '-' then
      if a ≤ c then (classItems rest).map (fun l => (a, c) :: l) else none
    else (classItems (b :: c :: rest)).map (fun l => (a, a) :: l)

/-- Rust `Char::new`: fallible construction of a Class matcher. Compilation of
`"[" ++ pat ++ "]"` fails (an `Err`, surfaced at build time) when the interior
is empty or contains a reversed range; on success the compiled test accepts a
character iff it lies in one of the accepted ranges. -/
def Char.new (pat : List Char) : Except String (Char → Bool) :=
  if pat = [] then Except.error "regex compile error: empty class"
  else
    match classItems pat with
    | some items =>
        Except.ok (fun c => items.any (fun r => decide (r.1 ≤ c) && decide (c ≤ r.2)))
    | none => Except.error "regex compile error: invalid range"

/-- Rust `impl Parse for Seq`, the loop body: thread the cursor through the
remaining children, accumulating each child's fragment list; concatenate the
accumulated lists on success. -/
def Seq.go : List Parser → State → List Frags → Option (Frags × State)
  | [], current, results => some (results.flatten, current)
  | p :: ps, current, results =>
    match p current with
    | some (res, next) => Seq.go ps next (results ++ [res])
    | none => none

/-- Rust `impl Parse for Seq`: run the children in order from the given
cursor, starting with no accumulated results. -/
def Seq.parse (seq : List Parser) : Parser := fun st => Seq.go seq st []

/-- Rust `impl Parse for Alt`: try each choice in declared order on the same
original cursor and return the first `Some` result unmodified. -/
def Alt.parse : List Parser → Parser
  | [], _ => none
  | p :: ps, st =>
    match p st with
    | some r => some r
    | none => Alt.parse ps st

/-- Rust `impl Parse for Rep`, the greedy loop, with explicit fuel. The outer
`Option` marks whether the loop exits within the given fuel (`some` = the
Rust loop returns, `none` = the Rust loop is still running); the inner value
is what the Rust loop returns: on the child's first failure, the concatenated
results and current cursor when at least `min` repetitions succeeded,
otherwise `none`. -/
def Rep.loop (child : Parser) (min : Nat) : Nat → State → List Frags → Option (Option (Frags × State))
  | 0, _, _ => none
  | fuel + 1, current, results =>
    match child current with
    | some (res, next) => Rep.loop child min fuel next (results ++ [res])
    | none => some (if min ≤ results.length then some (results.flatten, current) else none)

/-- Rust `impl Parse for Rep`: the repetition matcher relates a cursor to an
outcome iff its loop, run with no accumulated results, exits with that
outcome within some fuel. -/
def Rep.Matches (child : Parser) (min : Nat) (st : State) (out : Option (Frags × State)) : Prop :=
  ∃ fuel, Rep.loop child min fuel st [] = some out

/-- A matcher tree: the closed algebra of the five combinators. A Class node
holds its compiled test. -/
inductive Matcher where
  | lit (l : List Char)
  | cls (p : Char → Bool)
  | seq (children : List Matcher)
  | rep (child : Matcher) (min : Nat)
  | alt (choices : List Matcher)

/-- Fueled interpreter for matcher trees: each node runs the corresponding
combinator on its children interpreted with one unit less fuel, and the
repetition loop gets the remaining fuel; `none` covers both a failed match
and fuel exhaustion. -/
def parseT : Nat → Matcher → State → Option (Frags × State)
  | 0, _, _ => none
  | _ + 1, .lit l, st => Lit.parse l st
  | _ + 1, .cls p, st => Char.parse p st
  | f + 1, .seq cs, st => Seq.parse (cs.map (fun c => parseT f c)) st
  | f + 1, .rep c min, st => (Rep.loop (fun st₂ => parseT f c st₂) min (f + 1) st []).join
  | f + 1, .alt cs, st => Alt.parse (cs.map (fun c => parseT f c)) st

/-- When fewer than `n` characters remain, `peek` returns the empty string. -/
theorem peek_of_lt (st : State) (n : Nat) (h : st.s.length < st.offset + n) :
    st.peek n = [] := by
  unfold State.peek
  rw [if_pos h]

/-- When at least `n` characters remain, `peek` returns the next `n`
characters starting at the offset. -/
theorem peek_of_le (st : State) (n : Nat) (h : st.offset + n ≤ st.s.length) :
    st.peek n = (st.s.drop st.offset).take n := by
  unfold State.peek
  rw [if_neg (by omega)]

/-- Peeking zero characters always returns the empty string. -/
theorem peek_zero (st : State) : st.peek 0 = [] := by
  unfold State.peek
  split
  · rfl
  · exact List.take_zero _

/-- Splicing two adjacent consumed slices of the same text. -/
theorem consumed_trans (t : List Char) (a b c : Nat) (hab : a ≤ b) (hbc : b ≤ c) :
    (t.drop a).take (b - a) ++ (t.drop b).take (c - b) = (t.drop a).take (c - a) := by
  have hd : (t.drop a).drop (b - a) = t.drop b := by
    rw [List.drop_drop]
    congr 1
    omega
  rw [← hd, ← List.take_add]
  congr 1
  omega

/-- The fragments-equal-consumed-input soundness property of a parser: a
success keeps the text, never moves the offset backwards, stays within the
text (unless the starting offset was already out of bounds, in which case it
stays put), and its flattened fragments are exactly the consumed slice. -/
def Sound (p : Parser) : Prop :=
  ∀ st r st', p st = some (r, st') →
    st'.s = st.s ∧ st.offset ≤ st'.offset ∧ st'.offset ≤ max st.offset st.s.length ∧
    r.flatten = (st.s.drop st.offset).take (st'.offset - st.offset)

/-- The literal matcher is sound. -/
theorem lit_sound (l : List Char) : Sound (Lit.parse l) := by
  intro st r st' h
  simp only [Lit.parse] at h
  split at h
  case isFalse => exact absurd h (by simp)
  case isTrue hp =>
    obtain ⟨h1, h2⟩ := Prod.mk.inj (Option.some.inj h)
    subst h1 h2
    rcases Nat.lt_or_ge st.s.length (st.offset + l.length) with hlt | hge
    · have hpk := peek_of_lt st l.length hlt
      have hl : l = [] := by rw [hpk] at hp; exact hp.symm
      subst hl
      simp [State.read, hpk, peek_zero]
    · have hpk := peek_of_le st l.length hge
      refine ⟨rfl, by simp [State.read], ?_, ?_⟩
      · simp only [State.read]
        omega
      · simp [State.read, hpk]

/-- Chaining the per-step soundness facts across two consecutive steps. -/
theorem step_sound (st st₁ st' : State) (x y : List Char)
    (hA : st₁.s = st.s ∧ st.offset ≤ st₁.offset ∧ st₁.offset ≤ max st.offset st.s.length ∧
          x = (st.s.drop st.offset).take (st₁.offset - st.offset))
    (hB : st'.s = st₁.s ∧ st₁.offset ≤ st'.offset ∧ st'.offset ≤ max st₁.offset st₁.s.length ∧
          y = (st₁.s.drop st₁.offset).take (st'.offset - st₁.offset)) :
    st'.s = st.s ∧ st.offset ≤ st'.offset ∧ st'.offset ≤ max st.offset st.s.length ∧
      x ++ y = (st.s.drop st.offset).take (st'.offset - st.offset) := by
  obtain ⟨a1, a2, a3, a4⟩ := hA
  obtain ⟨b1, b2, b3, b4⟩ := hB
  refine ⟨by rw [b1, a1], Nat.le_trans a2 b2, ?_, ?_⟩
  · calc st'.offset ≤ max st₁.offset st₁.s.length := b3
      _ = max st₁.offset st.s.length := by rw [a1]
      _ ≤ max (max st.offset st.s.length) st.s.length := max_le_max a3 le_rfl
      _ = max st.offset st.s.length := by rw [max_assoc, max_self]
  · rw [a4, b4, a1]
    exact consumed_trans st.s st.offset st₁.offset st'.offset a2 b2

/-- The class matcher is sound. -/
theorem char_sound (p : Char → Bool) : Sound (Char.parse p) := by
  intro st r st' h
  simp only [Char.parse] at h
  split at h
  case isFalse => exact absurd h (by simp)
  case isTrue hp =>
    obtain ⟨h1, h2⟩ := Prod.mk.inj (Option.some.inj h)
    subst h1 h2
    rcases Nat.lt_or_ge st.s.length (st.offset + 1) with hlt | hge
    · rw [peek_of_lt st 1 hlt] at hp
      exact absurd hp (by simp [isMatch])
    · have hpk := peek_of_le st 1 hge
      refine ⟨rfl, by simp [State.read], ?_, ?_⟩
      · simp only [State.read]
        omega
      · simp [State.read, hpk]

/-- The sequence loop is sound, relative to the accumulated results. -/
theorem seqGo_sound (ps : List Parser) (hps : ∀ p, p ∈ ps → Sound p) :
    ∀ st acc r st', Seq.go ps st acc = some (r, st') →
      st'.s = st.s ∧ st.offset ≤ st'.offset ∧ st'.offset ≤ max st.offset st.s.length ∧
      r.flatten = acc.flatten.flatten ++ (st.s.drop st.offset).take (st'.offset - st.offset) := by
  induction ps with
  | nil =>
    intro st acc r st' h
    simp only [Seq.go] at h
    obtain ⟨h1, h2⟩ := Prod.mk.inj (Option.some.inj h)
    subst h1 h2
    simp
  | cons p ps ih =>
    intro st acc r st' h
    simp only [Seq.go] at h
    cases hp : p st with
    | none => rw [hp] at h; exact absurd h (by simp)
    | some v =>
      obtain ⟨r₀, st₁⟩ := v
      rw [hp] at h
      have hs := hps p (List.mem_cons_self p ps) st r₀ st₁ hp
      have hrest := ih (fun q hq => hps q (List.mem_cons_of_mem p hq)) st₁ (acc ++ [r₀]) r st' h
      obtain ⟨hr1, hr2, hr3, hr4⟩ := hrest
      obtain ⟨c1, c2, c3, c4⟩ :=
        step_sound st st₁ st' r₀.flatten ((st₁.s.drop st₁.offset).take (st'.offset - st₁.offset))
          hs ⟨hr1, hr2, hr3, rfl⟩
      refine ⟨c1, c2, c3, ?_⟩
      rw [hr4]
      have hacc : (acc ++ [r₀]).flatten.flatten = acc.flatten.flatten ++ r₀.flatten := by simp
      rw [hacc, List.append_assoc, c4]

/-- The alternation matcher is sound when all its choices are. -/
theorem alt_sound (ps : List Parser) (hps : ∀ p, p ∈ ps → Sound p) :
    Sound (Alt.parse ps) := by
  induction ps with
  | nil => intro st r st' h; exact absurd h (by simp [Alt.parse])
  | cons p ps ih =>
    intro st r st' h
    simp only [Alt.parse] at h
    cases hp : p st with
    | some v =>
      rw [hp] at h
      cases Option.some.inj h
      exact hps p (List.mem_cons_self p ps) st r st' hp
    | none =>
      rw [hp] at h
      exact ih (fun q hq => hps q (List.mem_cons_of_mem p hq)) st r st' h

/-- The repetition loop is sound, relative to the accumulated results. -/
theorem repLoop_sound (child : Parser) (hc : Sound child) (mn : Nat) :
    ∀ fuel st acc r st', Rep.loop child mn fuel st acc = some (some (r, st')) →
      st'.s = st.s ∧ st.offset ≤ st'.offset ∧ st'.offset ≤ max st.offset st.s.length ∧
      r.flatten = acc.flatten.flatten ++ (st.s.drop st.offset).take (st'.offset - st.offset) := by
  intro fuel
  induction fuel with
  | zero => intro st acc r st' h; exact absurd h (by simp [Rep.loop])
  | succ f ih =>
    intro st acc r st' h
    simp only [Rep.loop] at h
    cases hp : child st with
    | some v =>
      obtain ⟨r₀, st₁⟩ := v
      rw [hp] at h
      have hs := hc st r₀ st₁ hp
      have hrest := ih st₁ (acc ++ [r₀]) r st' h
      obtain ⟨hr1, hr2, hr3, hr4⟩ := hrest
      obtain ⟨c1, c2, c3, c4⟩ :=
        step_sound st st₁ st' r₀.flatten ((st₁.s.drop st₁.offset).take (st'.offset - st₁.offset))
          hs ⟨hr1, hr2, hr3, rfl⟩
      refine ⟨c1, c2, c3, ?_⟩
      rw [hr4]
      have hacc : (acc ++ [r₀]).flatten.flatten = acc.flatten.flatten ++ r₀.flatten := by simp
      rw [hacc, List.append_assoc, c4]
    | none =>
      rw [hp] at h
      have h2 := Option.some.inj h
      split at h2
      · obtain ⟨h3, h4⟩ := Prod.mk.inj (Option.some.inj h2)
        subst h3 h4
        simp
      · exact absurd h2 (by simp)

/-- Every interpreted matcher tree is sound, at every fuel. -/
theorem parseT_sound : ∀ (f : Nat) (m : Matcher), Sound (fun st => parseT f m st) := by
  intro f
  induction f with
  | zero => intro m st r st' h; exact absurd h (by simp [parseT])
  | succ f ih =>
    intro m
    cases m with
    | lit l => exact fun st r st' h => lit_sound l st r st' h
    | cls p => exact fun st r st' h => char_sound p st r st' h
    | seq cs =>
      intro st r st' h
      simp only [parseT, Seq.parse] at h
      have hps : ∀ p, p ∈ cs.map (fun c => parseT f c) → Sound p := by
        intro p hp
        obtain ⟨c, _, rfl⟩ := List.mem_map.mp hp
        exact ih c
      obtain ⟨a, b, c, d⟩ := seqGo_sound _ hps st [] r st' h
      exact ⟨a, b, c, by simpa using d⟩
    | rep c mn =>
      intro st r st' h
      simp only [parseT] at h
      rw [Option.join_eq_some] at h
      obtain ⟨a, b, c2, d⟩ := repLoop_sound (fun st₂ => parseT f c st₂) (ih c) mn (f + 1) st [] r st' h
      exact ⟨a, b, c2, by simpa using d⟩
    | alt cs =>
      intro st r st' h
      simp only [parseT] at h
      have hps : ∀ p, p ∈ cs.map (fun c => parseT f c) → Sound p := by
        intro p hp
        obtain ⟨c, _, rfl⟩ := List.mem_map.mp hp
        exact ih c
      exact alt_sound _ hps st r st' h

/-- A one-character peek is either empty or a single character. -/
theorem peek_one_cases (st : State) : st.peek 1 = [] ∨ ∃ c, st.peek 1 = [c] := by
  unfold State.peek
  split
  · exact Or.inl rfl
  · rename_i h
    right
    cases hd : st.s.drop st.offset with
    | nil =>
      exfalso
      have hlen := List.length_drop st.offset st.s
      rw [hd] at hlen
      simp at hlen
      omega
    | cons c t => exact ⟨c, rfl⟩

/-- Specification-side semantics of the Sequence combinator, following the
spec's words: thread a running cursor through each child in declared order,
fail as soon as any child fails, and on full success return the
concatenation of the children's fragment lists, in order, with the final
cursor; the empty child list trivially succeeds consuming nothing. -/
def seqSpec : List Parser → State → Option (Frags × State)
  | [], st => some ([], st)
  | p :: ps, st =>
    match p st with
    | none => none
    | some (r, st₁) =>
      match seqSpec ps st₁ with
      | none => none
      | some (fs, st₂) => some (r ++ fs, st₂)

/-- The sequence loop agrees with the specification-side semantics, up to the
accumulated results. -/
theorem seqGo_eq (ps : List Parser) : ∀ st acc, Seq.go ps st acc =
    match seqSpec ps st with
    | none => none
    | some (fs, st₂) => some (acc.flatten ++ fs, st₂) := by
  induction ps with
  | nil => intro st acc; simp [Seq.go, seqSpec]
  | cons p ps ih =>
    intro st acc
    simp only [Seq.go, seqSpec]
    cases hp : p st with
    | none => rfl
    | some v =>
      obtain ⟨r, st₁⟩ := v
      dsimp only
      rw [ih st₁ (acc ++ [r])]
      cases hs : seqSpec ps st₁ with
      | none => rfl
      | some w =>
        obtain ⟨fs, st₂⟩ := w
        simp

/-- Specification-side greedy repetition run, following the spec's words: the
child is applied repeatedly from the cursor, collecting each success's
fragment list, until the child first fails; the run records the collected
fragment lists and the cursor reached after the last successful repetition. -/
inductive GreedyRun (child : Parser) : State → List Frags → State → Prop where
  | stop : ∀ st, child st = none → GreedyRun child st [] st
  | step : ∀ st r st₁ fs st₂, child st = some (r, st₁) → GreedyRun child st₁ fs st₂ →
      GreedyRun child st (r :: fs) st₂

/-- A repetition loop that exits produces exactly the outcome dictated by the
greedy run from its cursor, relative to the accumulated results. -/
theorem repLoop_to_run (child : Parser) (mn : Nat) :
    ∀ fuel st acc out, Rep.loop child mn fuel st acc = some out →
      ∃ fs st', GreedyRun child st fs st' ∧
        out = if mn ≤ (acc ++ fs).length then some ((acc ++ fs).flatten, st') else none := by
  intro fuel
  induction fuel with
  | zero => intro st acc out h; exact absurd h (by simp [Rep.loop])
  | succ f ih =>
    intro st acc out h
    simp only [Rep.loop] at h
    cases hp : child st with
    | some v =>
      obtain ⟨r, st₁⟩ := v
      rw [hp] at h
      obtain ⟨fs, st', hrun, hout⟩ := ih st₁ (acc ++ [r]) out h
      refine ⟨r :: fs, st', GreedyRun.step st r st₁ fs st' hp hrun, ?_⟩
      simpa using hout
    | none =>
      rw [hp] at h
      have h2 := Option.some.inj h
      exact ⟨[], st, GreedyRun.stop st hp, by simp [← h2]⟩

/-- A greedy run gives the repetition loop enough fuel to exit, with the
outcome dictated by the run, relative to the accumulated results. -/
theorem run_to_repLoop (child : Parser) (mn : Nat) :
    ∀ st fs st', GreedyRun child st fs st' → ∀ acc,
      Rep.loop child mn (fs.length + 1) st acc =
        some (if mn ≤ (acc ++ fs).length then some ((acc ++ fs).flatten, st') else none) := by
  intro st fs st' hrun
  induction hrun with
  | stop st h => intro acc; simp [Rep.loop, h]
  | step st r st₁ fs st₂ h _ ih =>
    intro acc
    have hlen : (r :: fs).length + 1 = fs.length + 1 + 1 := by simp
    rw [hlen, Rep.loop]
    simp only [h]
    rw [ih (acc ++ [r])]
    simp

/-- Modelled from the spec: well-formedness of the items of a
bracket-expression interior — every range item `a-b` must have `a <= b`. -/
def itemsOk : List Char → Bool
  | [] => true
  | [_] => true
  | [_, _] => true
  | a :: b :: c :: rest =>
    if b = '-' then decide (a ≤ c) && itemsOk rest else itemsOk (b :: c :: rest)

/-- Modelled from the spec: a pattern string is a valid bracket-expression
interior iff it is nonempty and its items are well-formed. -/
def validInterior (pat : List Char) : Bool := !pat.isEmpty && itemsOk pat

/-- The class-item compiler succeeds exactly on well-formed item lists. -/
theorem classItems_isSome : ∀ pat : List Char, (classItems pat).isSome = itemsOk pat
  | [] => rfl
  | [_] => rfl
  | [_, _] => rfl
  | a :: b :: c :: rest => by
    simp only [classItems, itemsOk]
    split
    · by_cases hac : a ≤ c
      · simp [hac, Option.isSome_map, classItems_isSome rest]
      · simp [hac]
    · simp [Option.isSome_map, classItems_isSome (b :: c :: rest)]

/-- The repetition loop exits within `n + 1` steps of fuel when the child
always consumes on success, stays within the text, and at most `n`
characters remain. -/
theorem repLoop_total (child : Parser) (mn : Nat)
    (hb : ∀ st r st', child st = some (r, st') →
      st'.s = st.s ∧ st'.offset ≤ max st.offset st.s.length)
    (hc : ∀ st r st', child st = some (r, st') → st.offset < st'.offset) :
    ∀ n st acc, st.s.length ≤ st.offset + n →
      ∃ fuel out, Rep.loop child mn fuel st acc = some out := by
  intro n
  induction n with
  | zero =>
    intro st acc hn
    cases hp : child st with
    | some v =>
      obtain ⟨r, st₁⟩ := v
      obtain ⟨h1, h2⟩ := hb st r st₁ hp
      have h3 := hc st r st₁ hp
      exfalso
      rw [Nat.max_eq_left (by omega : st.s.length ≤ st.offset)] at h2
      omega
    | none =>
      exact ⟨1, if mn ≤ acc.length then some (acc.flatten, st) else none,
        by simp [Rep.loop, hp]⟩
  | succ n ih =>
    intro st acc hn
    cases hp : child st with
    | some v =>
      obtain ⟨r, st₁⟩ := v
      obtain ⟨h1, h2⟩ := hb st r st₁ hp
      have h3 := hc st r st₁ hp
      obtain ⟨fuel, out, hout⟩ := ih st₁ (acc ++ [r]) (by rw [h1]; omega)
      exact ⟨fuel + 1, out, by simp only [Rep.loop, hp]; exact hout⟩
    | none =>
      exact ⟨1, if mn ≤ acc.length then some (acc.flatten, st) else none,
        by simp [Rep.loop, hp]⟩

/-- A one-character literal matcher consumes exactly one character on
success. -/
theorem lit_consumes (st₁ : State) (r : Frags) (st₂ : State)
    (h : Lit.parse ['a'] st₁ = some (r, st₂)) : st₁.offset < st₂.offset := by
  simp only [Lit.parse] at h
  split at h
  case isTrue hp =>
    obtain ⟨h1, h2⟩ := Prod.mk.inj (Option.some.inj h)
    subst h2
    simp [State.read]
  case isFalse => exact absurd h (by simp)

/-- C1: for every literal string and every cursor, the Literal matcher
succeeds iff peeking the literal's length yields the literal; on success it
returns exactly the fragment list containing the literal and a cursor with
the same text advanced by the literal's length, and otherwise it fails with
`none`. -/
theorem lit_correct (l : List Char) (st : State) :
    ((∃ out, Lit.parse l st = some out) ↔ st.peek l.length = l)
    ∧ (st.peek l.length = l →
        Lit.parse l st = some ([l], State.mk st.s (st.offset + l.length)))
    ∧ (st.peek l.length ≠ l → Lit.parse l st = none) := by
  refine ⟨⟨?_, ?_⟩, ?_, ?_⟩
  · rintro ⟨out, h⟩
    simp only [Lit.parse] at h
    by_cases hp : st.peek l.length = l
    · exact hp
    · rw [if_neg hp] at h
      exact absurd h (by simp)
  · intro hp
    exact ⟨([l], State.mk st.s (st.offset + l.length)), by simp [Lit.parse, hp, State.read]⟩
  · intro hp
    simp [Lit.parse, hp, State.read]
  · intro hp
    simp [Lit.parse, hp]

/-- Witness for C1: `Lit("hi")` on `"hix"` at offset 0 succeeds with
fragments `["hi"]` and offset 2. -/
theorem lit_correct_witness :
    Lit.parse ['h', 'i'] (State.mk ['h', 'i', 'x'] 0) =
      some ([['h', 'i']], State.mk ['h', 'i', 'x'] 2) :=
  (lit_correct ['h', 'i'] (State.mk ['h', 'i', 'x'] 0)).2.1 (by decide)

/-- C2: the Repetition matcher's possible outcomes are exactly those of the
greedy run of its child: the child is applied until it first fails, and the
result is the concatenated fragments with the cursor after the last success
when the repetition count reached at least `min`, and `none` (no partial
result) otherwise. -/
theorem rep_correct (child : Parser) (mn : Nat) (st : State) (out : Option (Frags × State)) :
    Rep.Matches child mn st out ↔
      ∃ fs st', GreedyRun child st fs st' ∧
        out = if mn ≤ fs.length then some (fs.flatten, st') else none := by
  constructor
  · rintro ⟨fuel, h⟩
    obtain ⟨fs, st', hrun, hout⟩ := repLoop_to_run child mn fuel st [] out h
    exact ⟨fs, st', hrun, by simpa using hout⟩
  · rintro ⟨fs, st', hrun, hout⟩
    refine ⟨fs.length + 1, ?_⟩
    rw [run_to_repLoop child mn st fs st' hrun []]
    subst hout
    simp

/-- Witness for C2: `Rep(Lit("g"), min=2)` on `"gg"` exits as a greedy run of
two repetitions. -/
theorem rep_correct_witness :
    ∃ fs st', GreedyRun (Lit.parse ['g']) (State.mk ['g', 'g'] 0) fs st' ∧
      (some ([['g'], ['g']], State.mk ['g', 'g'] 2) : Option (Frags × State)) =
        if 2 ≤ fs.length then some (fs.flatten, st') else none :=
  (rep_correct (Lit.parse ['g']) 2 (State.mk ['g', 'g'] 0)
    (some ([['g'], ['g']], State.mk ['g', 'g'] 2))).mp ⟨3, by decide⟩

/-- C3: the Alternation matcher fails iff every choice fails on the original
cursor, and succeeds with outcome `out` iff some choice succeeds with exactly
`out` while every earlier-declared choice fails on the same original
cursor. -/
theorem alt_correct (choices : List Parser) (st : State) :
    (Alt.parse choices st = none ↔ ∀ p, p ∈ choices → p st = none)
    ∧ (∀ out, Alt.parse choices st = some out ↔
        ∃ pre p post, choices = pre ++ p :: post ∧ (∀ q, q ∈ pre → q st = none) ∧
          p st = some out) := by
  induction choices with
  | nil =>
    refine ⟨by simp [Alt.parse], ?_⟩
    intro out
    constructor
    · intro h
      exact absurd h (by simp [Alt.parse])
    · rintro ⟨pre, p, post, hch, -, -⟩
      exact absurd hch (by simp)
  | cons p ps ih =>
    constructor
    · simp only [Alt.parse]
      cases hp : p st with
      | some v =>
        constructor
        · intro h
          exact absurd h (by simp)
        · intro h
          exact absurd (h p (List.mem_cons_self p ps)) (by rw [hp]; simp)
      | none =>
        constructor
        · intro h
          intro q hq
          rcases List.mem_cons.mp hq with rfl | hq'
          · exact hp
          · exact ih.1.mp h q hq'
        · intro h
          exact ih.1.mpr (fun q hq => h q (List.mem_cons_of_mem p hq))
    · intro out
      simp only [Alt.parse]
      cases hp : p st with
      | some v =>
        constructor
        · intro h
          cases Option.some.inj h
          exact ⟨[], p, ps, rfl, by simp, hp⟩
        · rintro ⟨pre, q, post, hch, hpre, hq⟩
          cases pre with
          | nil =>
            injection hch with h1 h2
            subst h1
            rw [hp] at hq
            exact hq
          | cons q₀ pre' =>
            injection hch with h1 h2
            subst h1
            exact absurd hp (by rw [hpre p (List.mem_cons_self p pre')]; simp)
      | none =>
        constructor
        · intro h
          obtain ⟨pre, q, post, hch, hpre, hq⟩ := (ih.2 out).mp h
          refine ⟨p :: pre, q, post, by rw [hch]; rfl, ?_, hq⟩
          intro q₂ hq₂
          rcases List.mem_cons.mp hq₂ with rfl | hq₂'
          · exact hp
          · exact hpre q₂ hq₂'
        · rintro ⟨pre, q, post, hch, hpre, hq⟩
          cases pre with
          | nil =>
            injection hch with h1 h2
            subst h1
            rw [hp] at hq
            exact absurd hq (by simp)
          | cons q₀ pre' =>
            injection hch with h1 h2
            subst h1
            exact (ih.2 out).mpr
              ⟨pre', q, post, h2, fun q₂ hq₂ => hpre q₂ (List.mem_cons_of_mem p hq₂), hq⟩

/-- Witness for C3: `Alt([Lit("f"), Lit("b")])` on `"b"` returns the second
choice's result after the first fails, and fails on `"z"`. -/
theorem alt_correct_witness :
    Alt.parse [Lit.parse ['f'], Lit.parse ['b']] (State.mk ['b'] 0) =
      some ([['b']], State.mk ['b'] 1) ∧
    Alt.parse [Lit.parse ['f'], Lit.parse ['b']] (State.mk ['z'] 0) = none :=
  ⟨((alt_correct [Lit.parse ['f'], Lit.parse ['b']] (State.mk ['b'] 0)).2
      ([['b']], State.mk ['b'] 1)).mpr
      ⟨[Lit.parse ['f']], Lit.parse ['b'], [], rfl,
       by intro q hq; rw [List.mem_singleton.mp hq]; decide, by decide⟩,
   (alt_correct [Lit.parse ['f'], Lit.parse ['b']] (State.mk ['z'] 0)).1.mpr
      (by
        intro q hq
        rcases List.mem_cons.mp hq with rfl | hq'
        · decide
        · rw [List.mem_singleton.mp hq']; decide)⟩

/-- C4: the Sequence matcher equals the specification-side semantics — it
threads the cursor through the children in order, fails as soon as any child
fails with no partial result, concatenates the fragment lists in order on
full success, and the empty sequence succeeds with no fragments and the
unchanged cursor. -/
theorem seq_correct (children : List Parser) (st : State) :
    Seq.parse children st = seqSpec children st
    ∧ Seq.parse [] st = some ([], st) := by
  constructor
  · simp only [Seq.parse]
    rw [seqGo_eq children st []]
    cases seqSpec children st with
    | none => rfl
    | some v =>
      obtain ⟨fs, st₂⟩ := v
      simp
  · rfl

/-- Witness for C4: a two-literal sequence on `"ab"` agrees with the
specification semantics, and the empty sequence succeeds in place. -/
theorem seq_correct_witness :
    Seq.parse [Lit.parse ['a'], Lit.parse ['b']] (State.mk ['a', 'b'] 0) =
      seqSpec [Lit.parse ['a'], Lit.parse ['b']] (State.mk ['a', 'b'] 0)
    ∧ Seq.parse [] (State.mk ['a', 'b'] 0) = some ([], State.mk ['a', 'b'] 0) :=
  seq_correct [Lit.parse ['a'], Lit.parse ['b']] (State.mk ['a', 'b'] 0)

/-- C5: `peek(n)` is a total function; it returns the empty string whenever
fewer than `n` characters remain past the offset (in particular whenever the
offset exceeds the text length), and otherwise returns the next `n`
characters starting at the offset. -/
theorem peek_total (st : State) (n : Nat) :
    (st.s.length < st.offset + n → st.peek n = [])
    ∧ (st.s.length < st.offset → st.peek n = [])
    ∧ (st.offset + n ≤ st.s.length → st.peek n = (st.s.drop st.offset).take n) :=
  ⟨peek_of_lt st n, fun h => peek_of_lt st n (by omega), peek_of_le st n⟩

/-- Witness for C5: out-of-bounds peeks return the empty string, in-bounds
peeks return the next characters. -/
theorem peek_total_witness :
    (State.mk ['a', 'b', 'c'] 1).peek 5 = []
    ∧ (State.mk ['a', 'b'] 7).peek 1 = []
    ∧ (State.mk ['a', 'b', 'c'] 1).peek 2 = ['b', 'c'] :=
  ⟨(peek_total (State.mk ['a', 'b', 'c'] 1) 5).1 (by decide),
   (peek_total (State.mk ['a', 'b'] 7) 1).2.1 (by decide),
   by simpa using (peek_total (State.mk ['a', 'b', 'c'] 1) 2).2.2 (by decide)⟩

/-- C6: the Class matcher succeeds iff the one-character peek is exactly one
character satisfying the compiled class test; on success it returns that
character as the only fragment with the cursor advanced by 1, and it fails
when no character remains. -/
theorem char_correct (p : Char → Bool) (st : State) :
    ((∃ out, Char.parse p st = some out) ↔ ∃ c, st.peek 1 = [c] ∧ p c = true)
    ∧ (∀ c, st.peek 1 = [c] → p c = true →
        Char.parse p st = some ([[c]], State.mk st.s (st.offset + 1)))
    ∧ (st.peek 1 = [] → Char.parse p st = none) := by
  refine ⟨⟨?_, ?_⟩, ?_, ?_⟩
  · rintro ⟨out, h⟩
    simp only [Char.parse] at h
    by_cases hm : isMatch p (st.peek 1) = true
    · rcases peek_one_cases st with hpk | ⟨c, hpk⟩
      · rw [hpk] at hm
        exact absurd hm (by simp [isMatch])
      · rw [hpk] at hm
        simp [isMatch] at hm
        exact ⟨c, hpk, hm⟩
    · rw [if_neg hm] at h
      exact absurd h (by simp)
  · rintro ⟨c, hpk, hpc⟩
    exact ⟨([[c]], State.mk st.s (st.offset + 1)),
      by simp [Char.parse, hpk, isMatch, hpc, State.read]⟩
  · intro c hpk hpc
    simp [Char.parse, hpk, isMatch, hpc, State.read]
  · intro hpk
    simp [Char.parse, hpk, isMatch]

/-- Witness for C6: a digit class on `"7a"` succeeds with fragment `"7"` and
offset 1, and fails on the empty remainder. -/
theorem char_correct_witness :
    Char.parse (fun c => decide ('0' ≤ c) && decide (c ≤ '9')) (State.mk ['7', 'a'] 0) =
      some ([['7']], State.mk ['7', 'a'] 1)
    ∧ Char.parse (fun c => decide ('0' ≤ c) && decide (c ≤ '9')) (State.mk [] 0) = none :=
  ⟨(char_correct (fun c => decide ('0' ≤ c) && decide (c ≤ '9'))
      (State.mk ['7', 'a'] 0)).2.1 '7' (by decide) (by decide),
   (char_correct (fun c => decide ('0' ≤ c) && decide (c ≤ '9'))
      (State.mk [] 0)).2.2 (by decide)⟩

/-- C7: when the child matcher consumes at least one character on every
success, the Repetition loop exits (with some outcome) on every cursor; and
a child that succeeds on some cursor while consuming nothing makes the loop
run forever from that cursor (no amount of fuel makes it exit). -/
theorem rep_termination :
    (∀ (f : Nat) (c : Matcher) (mn : Nat) (st : State),
       (∀ st₁ r st₂, parseT f c st₁ = some (r, st₂) → st₁.offset < st₂.offset) →
       ∃ fuel out, Rep.loop (fun st₂ => parseT f c st₂) mn fuel st [] = some out)
    ∧ (∀ (child : Parser) (mn : Nat) (st : State) (r : Frags),
       child st = some (r, st) →
       ∀ fuel acc, Rep.loop child mn fuel st acc = none) := by
  constructor
  · intro f c mn st hcons
    have hb : ∀ st₁ r st₂, parseT f c st₁ = some (r, st₂) →
        st₂.s = st₁.s ∧ st₂.offset ≤ max st₁.offset st₁.s.length := by
      intro st₁ r st₂ h
      obtain ⟨a, -, b, -⟩ := parseT_sound f c st₁ r st₂ h
      exact ⟨a, b⟩
    exact repLoop_total (fun st₂ => parseT f c st₂) mn hb hcons st.s.length st [] (by omega)
  · intro child mn st r hself fuel
    induction fuel with
    | zero => intro acc; simp [Rep.loop]
    | succ f ih =>
      intro acc
      simp only [Rep.loop, hself]
      exact ih (acc ++ [r])

/-- Witness for C7: repetition of a consuming literal exits on `"aa"`, while
repetition of the empty literal (which succeeds consuming nothing) never
exits. -/
theorem rep_termination_witness :
    (∃ fuel out, Rep.loop (fun st₂ => parseT 1 (Matcher.lit ['a']) st₂) 0 fuel
        (State.mk ['a', 'a'] 0) [] = some out)
    ∧ Rep.loop (Lit.parse []) 0 5 (State.mk [] 0) [] = none :=
  ⟨rep_termination.1 1 (Matcher.lit ['a']) 0 (State.mk ['a', 'a'] 0)
      (fun st₁ r st₂ h => lit_consumes st₁ r st₂ h),
   rep_termination.2 (Lit.parse []) 0 (State.mk [] 0) [[]] (by decide) 5 []⟩

/-- C8: Class-matcher construction is fallible at build time: it returns a
compilation error (`Except.error`, distinct from a match-time `none`) exactly
when the pattern is not a valid bracket-expression interior, and a usable
compiled test for every valid pattern. -/
theorem class_build (pat : List Char) :
    ((∃ e, Char.new pat = Except.error e) ↔ validInterior pat = false)
    ∧ (validInterior pat = true → ∃ p, Char.new pat = Except.ok p) := by
  have hiso := classItems_isSome pat
  constructor
  · constructor
    · rintro ⟨e, he⟩
      unfold Char.new at he
      split at he
      · rename_i hpat
        simp [validInterior, hpat]
      · rename_i hpat
        split at he
        · exact absurd he (by simp)
        · rename_i heq
          rw [heq] at hiso
          cases pat with
          | nil => exact absurd rfl hpat
          | cons a t => simp [validInterior, ← hiso]
    · intro hv
      unfold Char.new
      by_cases hpat : pat = []
      · rw [if_pos hpat]
        exact ⟨_, rfl⟩
      · rw [if_neg hpat]
        have hio : itemsOk pat = false := by
          cases pat with
          | nil => exact absurd rfl hpat
          | cons a t => simpa [validInterior] using hv
        have hnone : (classItems pat).isSome = false := by rw [hiso, hio]
        cases hc : classItems pat with
        | some its =>
          rw [hc] at hnone
          simp at hnone
        | none => exact ⟨_, rfl⟩
  · intro hv
    unfold Char.new
    have hpat : pat ≠ [] := by
      intro hp
      rw [hp] at hv
      simp [validInterior] at hv
    rw [if_neg hpat]
    cases hc : classItems pat with
    | some its => exact ⟨_, rfl⟩
    | none =>
      exfalso
      have hnone : (classItems pat).isSome = false := by rw [hc]; rfl
      rw [hiso] at hnone
      cases pat with
      | nil => exact hpat rfl
      | cons a t => simp [validInterior, hnone] at hv

/-- Witness for C8: `"0-9"` compiles to a usable test, while the reversed
range `"9-0"` and the empty interior are build-time errors. -/
theorem class_build_witness :
    (∃ p, Char.new ['0', '-', '9'] = Except.ok p)
    ∧ (∃ e, Char.new ['9', '-', '0'] = Except.error e)
    ∧ (∃ e, Char.new [] = Except.error e) :=
  ⟨(class_build ['0', '-', '9']).2 (by decide),
   (class_build ['9', '-', '0']).1.mpr (by decide),
   (class_build []).1.mpr (by decide)⟩

/-- C9: a Literal matcher for the zero-length string succeeds on every
cursor, including one whose offset is at or past the end of the text,
returning the empty-string fragment and a cursor with the same text and the
same offset. -/
theorem lit_empty (st : State) : Lit.parse [] st = some ([[]], State.mk st.s st.offset) := by
  simp [Lit.parse, peek_zero, State.read]

/-- Witness for C9: the empty literal succeeds at an offset past the end of
the text without consuming input. -/
theorem lit_empty_witness :
    Lit.parse [] (State.mk ['x'] 9) = some ([[]], State.mk ['x'] 9) :=
  lit_empty (State.mk ['x'] 9)

/-- C10: for every matcher tree and cursor with in-bounds offset, a
successful match keeps the text, never moves the offset backwards, stays
within the text, and its concatenated fragments equal the slice of the text
between the input offset and the returned offset. -/
theorem parse_invariant (f : Nat) (m : Matcher) (st : State) (r : Frags) (st' : State)
    (hoff : st.offset ≤ st.s.length) (h : parseT f m st = some (r, st')) :
    st'.s = st.s ∧ st.offset ≤ st'.offset ∧ st'.offset ≤ st.s.length ∧
      r.flatten = (st.s.drop st.offset).take (st'.offset - st.offset) := by
  obtain ⟨a, b, c, d⟩ := parseT_sound f m st r st' h
  refine ⟨a, b, ?_, d⟩
  rw [Nat.max_eq_right hoff] at c
  exact c

/-- Witness for C10: a sequence of two literals on `"abc"` consumes exactly
the slice `"ab"` and its fragments concatenate to it. -/
theorem parse_invariant_witness :
    (State.mk ['a', 'b', 'c'] 2).s = (State.mk ['a', 'b', 'c'] 0).s
    ∧ (State.mk ['a', 'b', 'c'] 0).offset ≤ (State.mk ['a', 'b', 'c'] 2).offset
    ∧ (State.mk ['a', 'b', 'c'] 2).offset ≤ (State.mk ['a', 'b', 'c'] 0).s.length
    ∧ ([['a'], ['b']] : Frags).flatten =
        ((State.mk ['a', 'b', 'c'] 0).s.drop (State.mk ['a', 'b', 'c'] 0).offset).take
          ((State.mk ['a', 'b', 'c'] 2).offset - (State.mk ['a', 'b', 'c'] 0).offset) :=
  parse_invariant 3 (Matcher.seq [Matcher.lit ['a'], Matcher.lit ['b']])
    (State.mk ['a', 'b', 'c'] 0) [['a'], ['b']] (State.mk ['a', 'b', 'c'] 2)
    (by decide) (by decide)
